import Mathlib

/-!
Verification of the query-understanding and retrieval-metrics core of the
rag-legal-retrieval-notebooks repository.

Strings are modelled as `List Char` (a Python `str` is a sequence of
characters).  Python `int` is modelled as `Int` (with Python slice
semantics made explicit), Python `float` results of the metrics as exact
rationals (`ℚ`) where the code only divides integers, and as real numbers
(`ℝ`) for nDCG, whose gains use `math.log2`.
-/

namespace RagLegal

/-- Shorthand turning a Lean string literal into the `List Char` model. -/
def strL (s : String) : List Char := s.data

/-! ## Character-level model (src/modules_annexes/query_understanding.py) -/

/-- The accented letters kept by the character class of `normalize_text`
(`[^a-zàâçéèêëîïôûùüÿñæœ\s]` in the source). -/
def lettersAllowed : List Char :=
  ['à', 'â', 'ç', 'é', 'è', 'ê', 'ë', 'î', 'ï', 'ô', 'û', 'ù', 'ü', 'ÿ', 'ñ', 'æ', 'œ']

/-- A character matched by `a-z` in the regex character class. -/
def isAsciiLowerAlpha (c : Char) : Bool := 97 ≤ c.toNat && c.toNat ≤ 122

/-- A character kept (not replaced by a space) by the regex substitution in
`normalize_text`, whitespace apart. -/
def isAllowedChar (c : Char) : Bool := isAsciiLowerAlpha c || lettersAllowed.contains c

/-- Python regex `\s` (and `str.strip` whitespace) over the Latin-1 range:
space, tab, LF, CR, VT, FF, the four separator controls, NEL and NBSP. -/
def pyIsSpace (c : Char) : Bool :=
  c.toNat ∈ [32, 9, 10, 13, 11, 12, 28, 29, 30, 31, 133, 160]

/-- Python `str.lower`, modelled on the Latin range (ASCII and Latin-1
uppercase letters, plus Ÿ and Œ); other characters are left unchanged,
which is faithful for every character that can reach the a-z/accented
output alphabet of `normalize_text`. -/
def pyLower (c : Char) : Char :=
  if 65 ≤ c.toNat && c.toNat ≤ 90 then Char.ofNat (c.toNat + 32)
  else if (192 ≤ c.toNat && c.toNat ≤ 222) && !(c.toNat == 215) then Char.ofNat (c.toNat + 32)
  else if c.toNat == 376 then 'ÿ'
  else if c.toNat == 338 then 'œ'
  else c

/-- One character step of `re.sub(r"[^a-zàâçéèêëîïôûùüÿñæœ\s]", " ", text)`:
a character in the class is kept, any other is replaced by a space. -/
def sub_special (c : Char) : Char :=
  if isAllowedChar c || pyIsSpace c then c else ' '

/-- `re.sub(r"\s+", " ", text)`: every maximal run of whitespace collapses
to a single space (a run contributes the single space once, at its end). -/
def collapse_ws : List Char → List Char
  | [] => []
  | [c] => [if pyIsSpace c then ' ' else c]
  | c :: d :: rest =>
    if pyIsSpace c && pyIsSpace d then collapse_ws (d :: rest)
    else (if pyIsSpace c then ' ' else c) :: collapse_ws (d :: rest)

/-- Python `str.strip()`: drop whitespace from both ends. -/
def pyStrip (l : List Char) : List Char :=
  (((l.dropWhile pyIsSpace).reverse.dropWhile pyIsSpace)).reverse

/-- `normalize_text` from src/modules_annexes/query_understanding.py:
lower-case, replace every character outside the letter/whitespace class by
a space, collapse whitespace runs and strip the ends. -/
def normalize_text (text : List Char) : List Char :=
  pyStrip (collapse_ws ((text.map pyLower).map sub_special))

/-! ## Python string containment (`needle in haystack`) -/

/-- Python `str.startswith` on the character-list model: does the first
list start with the second? -/
def listStartsWith : List Char → List Char → Bool
  | _, [] => true
  | [], _ :: _ => false
  | a :: as, b :: bs => a == b && listStartsWith as bs

/-- Python `needle in haystack` substring containment: the needle occurs
contiguously somewhere in the haystack. -/
def strContains : List Char → List Char → Bool
  | [], needle => listStartsWith [] needle
  | c :: rest, needle => listStartsWith (c :: rest) needle || strContains rest needle

/-! ## Juridical dictionary and query-understanding pipeline
(src/modules_annexes/query_understanding.py) -/

/-- One entry of the juridical dictionary (the YAML schema of §6: every
field the pipeline consumes). -/
structure IntentEntry where
  intentions_utilisateur : List (List Char)
  concepts_juridiques_centrals : List (List Char)
  termes_juridiques_textes : List (List Char)
  codes_cibles : List (List Char)
  articles_cibles : List (List Char)
deriving DecidableEq

/-- The loaded dictionary: intent keys mapped to entries, in declaration
order (Python dicts preserve insertion order). -/
abbrev JuridicalDictionary := List (List Char × IntentEntry)

/-- Python `dictionary[intent_key]` viewed as a partial lookup: the first
entry whose key matches. -/
def lookupDict (dictionary : JuridicalDictionary) (key : List Char) : Option IntentEntry :=
  (dictionary.find? (fun kv => kv.1 == key)).map (fun kv => kv.2)

/-- The failure `enrich_query` raises when its precondition is violated:
Python raises `KeyError` on `dictionary[intent_key]`; the design calls
this failure a precondition violation. -/
inductive PyFailure where
  | preconditionViolation
deriving DecidableEq

/-- Inner loop of `detect_intention`: does any trigger phrase of the entry
occur as a literal substring of the normalized query? -/
def phrase_hits (nq : List Char) : List (List Char) → Bool
  | [] => false
  | p :: ps => if strContains nq p then true else phrase_hits nq ps

/-- Outer loop of `detect_intention` over dictionary entries in order. -/
def detect_loop (nq : List Char) : JuridicalDictionary → Option (List Char)
  | [] => none
  | (intent_key, intent_data) :: rest =>
    if phrase_hits nq intent_data.intentions_utilisateur then some intent_key
    else detect_loop nq rest

/-- `detect_intention` from the source: normalize the query, then return
the key of the first entry owning a trigger phrase contained in it. -/
def detect_intention (query : List Char) (dictionary : JuridicalDictionary) :
    Option (List Char) :=
  detect_loop (normalize_text query) dictionary

/-- Python `" ".join(words)`. -/
def pyJoinSpace : List (List Char) → List Char
  | [] => []
  | [w] => w
  | w :: ws => w ++ ' ' :: pyJoinSpace ws

/-- `enrich_query` from the source: `dictionary[intent_key]` (a `KeyError`
when absent), then `query + " " + " ".join(concepts ++ termes)`. -/
def enrich_query (query intent_key : List Char) (dictionary : JuridicalDictionary) :
    Except PyFailure (List Char) :=
  match lookupDict dictionary intent_key with
  | none => Except.error PyFailure.preconditionViolation
  | some intent_data =>
    Except.ok (query ++ ' ' :: pyJoinSpace
      (intent_data.concepts_juridiques_centrals ++ intent_data.termes_juridiques_textes))

/-- The note returned when no intent is detected. -/
def noIntentNotes : List Char := strL "Aucune intention métier détectée"

/-- Result of `process_user_query`: a Python dict with keys that are
present or absent depending on the branch, modelled as optional fields. -/
structure PipelineResult where
  intent_detected : Option (List Char)
  enriched_query : List Char
  notes : Option (List Char)
  codes_cibles : Option (List (List Char))
  articles_cibles : Option (List (List Char))
deriving DecidableEq

/-- `process_user_query` from the source: detect, and either report no
intent (keeping the query unchanged) or enrich and attach the entry's
target codes and articles.  The error branches model the `KeyError` the
Python code would raise if the detected key were missing at lookup time. -/
def process_user_query (query : List Char) (dictionary : JuridicalDictionary) :
    Except PyFailure PipelineResult :=
  match detect_intention query dictionary with
  | none => Except.ok ⟨none, query, some noIntentNotes, none, none⟩
  | some intent =>
    match enrich_query query intent dictionary, lookupDict dictionary intent with
    | Except.ok enriched, some intent_data =>
      Except.ok ⟨some intent, enriched, none,
        some intent_data.codes_cibles, some intent_data.articles_cibles⟩
    | Except.error f, _ => Except.error f
    | Except.ok _, none => Except.error PyFailure.preconditionViolation

/-! ## Documents and ranked results -/

/-- Structured metadata a chunk may carry. -/
structure DocMeta where
  num : Option (List Char)
  titre : Option (List Char)
deriving DecidableEq

/-- A retrieved document record: at least `text`, optionally `meta`. -/
structure Document where
  text : List Char
  meta : Option DocMeta
deriving DecidableEq

/-- `doc.get("meta", {}).get("num")`: the structured article reference,
when present. -/
def docNum (doc : Document) : Option (List Char) :=
  doc.meta.bind (fun m => m.num)

/-- A ranked result list: `(document, score)` pairs as handed back by the
retrieval engine (scores are never inspected by the metrics). -/
abbrev RankedResults := List (Document × ℚ)

/-! ## Metrics (src/modules_annexes/metrics.py) -/

/-- `is_relevant` from the source: case-folded keyword containment. -/
def is_relevant (document_text : List Char) (relevant_keywords : List (List Char)) : Bool :=
  relevant_keywords.any (fun keyword =>
    strContains (document_text.map pyLower) (keyword.map pyLower))

/-- Python slice `l[:k]` for an arbitrary integer `k`: the first `k`
elements when `k ≥ 0`, and all but the last `-k` elements when `k < 0`. -/
def pySliceTo (l : RankedResults) (k : Int) : RankedResults :=
  if 0 ≤ k then l.take k.toNat else l.take ((l.length : Int) + k).toNat

/-- Loop of `recall_at_k` over the sliced window. -/
def recall_loop (kws : List (List Char)) : RankedResults → ℕ
  | [] => 0
  | (doc, _) :: rest => if is_relevant doc.text kws then 1 else recall_loop kws rest

/-- `recall_at_k` from the source: 1 when some document of `results[:k]`
is relevant, else 0. -/
def recall_at_k (results : RankedResults) (relevant_keywords : List (List Char))
    (k : Int) : ℕ :=
  recall_loop relevant_keywords (pySliceTo results k)

/-- Loop of `reciprocal_rank`, carrying the 1-based rank. -/
def rr_loop (kws : List (List Char)) : RankedResults → ℕ → ℚ
  | [], _ => 0
  | (doc, _) :: rest, rank =>
    if is_relevant doc.text kws then 1 / (rank : ℚ) else rr_loop kws rest (rank + 1)

/-- `reciprocal_rank` from the source: `1 / rank` of the first relevant
document of the full list, 0 when none is relevant. -/
def reciprocal_rank (results : RankedResults) (relevant_keywords : List (List Char)) : ℚ :=
  rr_loop relevant_keywords results 1

/-- The discounted gain `1 / log2(n + 1)` used by `ndcg_at_k`. -/
noncomputable def gain (n : ℕ) : ℝ := 1 / Real.logb 2 (n + 1)

/-- The DCG loop of `ndcg_at_k`: accumulates the gain of each relevant
document at its 1-based position `i`, and the `relevances` list (one 1 per
relevant document found).  Real addition is commutative and associative,
so the right-to-left accumulation equals the source's running sum. -/
noncomputable def ndcg_core (kws : List (List Char)) : RankedResults → ℕ → ℝ × List ℕ
  | [], _ => (0, [])
  | (doc, _) :: rest, i =>
    let acc := ndcg_core kws rest (i + 1)
    if is_relevant doc.text kws then (gain i + acc.1, 1 :: acc.2) else acc

/-- The IDCG loop of `ndcg_at_k`: `for i in range(1, n + 1): idcg += 1 / log2(i + 1)`. -/
noncomputable def idcg_loop : ℕ → ℝ
  | 0 => 0
  | n + 1 => idcg_loop n + gain (n + 1)

/-- `ndcg_at_k` from the source: DCG over `results[:k]`, 0 when the
`relevances` list stayed empty, else `dcg / idcg`. -/
noncomputable def ndcg_at_k (results : RankedResults)
    (relevant_keywords : List (List Char)) (k : Int) : ℝ :=
  if (ndcg_core relevant_keywords (pySliceTo results k) 1).2.isEmpty then 0
  else (ndcg_core relevant_keywords (pySliceTo results k) 1).1 /
    idcg_loop (ndcg_core relevant_keywords (pySliceTo results k) 1).2.length

/-! ## Benchmark queries v2 (src/notebooks/benchmark_queries_v2.py) -/

/-- The `BenchmarkQueryV2` frozen dataclass from the source. -/
structure BenchmarkQueryV2 where
  qid : List Char
  question : List Char
  relevant_num_prefixes : List (List Char)
  relevant_keywords_fallback : Option (List (List Char)) := none
deriving DecidableEq

/-- Modelled from the spec: the keyword fallback of the v2 oracle (§4.5);
the judging function for the article-prefix oracle is not under src/
(benchmark_queries_v2.py declares only the `BenchmarkQueryV2` record and
the fixture list).  With fallback keywords present, judge by the keyword
oracle; otherwise the document is not relevant. -/
def v2_fallback (doc : Document) (q : BenchmarkQueryV2) : Bool :=
  match q.relevant_keywords_fallback with
  | some kws => is_relevant doc.text kws
  | none => false

/-- Modelled from the spec: the v2 (article-prefix) relevance oracle
(§4.5), absent from src/.  A document is relevant iff its `meta.num`
starts with an accepted prefix; when `meta.num` is absent or empty the
keyword fallback applies. -/
def is_relevant_v2 (doc : Document) (q : BenchmarkQueryV2) : Bool :=
  match docNum doc with
  | some n =>
    if n.isEmpty then v2_fallback doc q
    else q.relevant_num_prefixes.any (fun p => listStartsWith n p)
  | none => v2_fallback doc q

/-! ## Specification-side definitions for nDCG (§4.6 of the spec) -/

/-- Number of relevant documents found in a window (the spec's
count_of_relevant_found). -/
def countRel (kws : List (List Char)) (l : RankedResults) : ℕ :=
  (l.filter (fun it => is_relevant it.1.text kws)).length

/-- The spec's DCG over a window: the gain of each relevant result at its
1-based position. -/
noncomputable def dcg_spec (kws : List (List Char)) (top : RankedResults) : ℝ :=
  (((top.enumFrom 1).filter (fun p => is_relevant p.2.1.text kws)).map
    (fun p => gain p.1)).sum

/-- The spec's IDCG for `n` relevant results found: the sum of
`1 / log2(j + 1)` for `j = 1..n`. -/
noncomputable def idcg_spec (n : ℕ) : ℝ :=
  ((List.range n).map (fun j => gain (j + 1))).sum

/-! ## Canonical form of normalized text -/

/-- A character that can appear in the output of `normalize_text`: a kept
letter or the plain space. -/
def okChar (c : Char) : Bool := isAllowedChar c || c == ' '

/-- Every character of the list can appear in normalized output. -/
def OkList (l : List Char) : Prop := ∀ c ∈ l, okChar c = true

/-- No two adjacent whitespace characters. -/
def NoAdj (l : List Char) : Prop :=
  List.Chain' (fun a b => pyIsSpace a = false ∨ pyIsSpace b = false) l

/-- The first character, when present, is not whitespace. -/
def HeadOk (l : List Char) : Prop := ∀ c, l.head? = some c → pyIsSpace c = false

/-- The last character, when present, is not whitespace. -/
def LastOk (l : List Char) : Prop := ∀ c, l.getLast? = some c → pyIsSpace c = false

/-! ## Concrete fixtures used by witnesses and counterexamples -/

/-- A document whose text contains the keyword "faute". -/
def docFaute : Document := ⟨strL "faute grave", none⟩

/-- A document without the keyword. -/
def docRien : Document := ⟨strL "rien", none⟩

/-- The keyword list for the fixtures. -/
def kwFaute : List (List Char) := [strL "faute"]

/-- A two-element ranked list whose first document is relevant. -/
def exResults : RankedResults := [(docFaute, 1), (docRien, 0)]

/-- A dictionary entry for the witnesses. -/
def exEntry : IntentEntry :=
  ⟨[strL "rompu sans préavis"],
   [strL "rupture anticipée", strL "faute grave"],
   [strL "préavis", strL "indemnité compensatrice"],
   [strL "code du travail"],
   [strL "L1234-1", strL "L1234-5"]⟩

/-- A one-entry dictionary. -/
def exDict : JuridicalDictionary := [(strL "rupture_sans_preavis", exEntry)]

/-- A document carrying the article reference L1234-3. -/
def docL1234 : Document := ⟨strL "texte de larticle", some ⟨some (strL "L1234-3"), none⟩⟩

/-- A v2 benchmark query accepting the prefix L1234, without fallback. -/
def qPref : BenchmarkQueryV2 := ⟨strL "Q1", strL "question", [strL "L1234"], none⟩

/-! ## Helper lemmas -/

/-- The inner loop of intent detection is a disjunction over the phrases. -/
theorem phrase_hits_any (nq : List Char) (ps : List (List Char)) :
    phrase_hits nq ps = ps.any (fun p => strContains nq p) := by
  induction ps with
  | nil => rfl
  | cons p ps ih =>
    cases h : strContains nq p <;> simp [phrase_hits, h, ih]

/-- The outer loop of intent detection is a first-match search. -/
theorem detect_loop_find? (nq : List Char) (d : JuridicalDictionary) :
    detect_loop nq d =
      (d.find? (fun kv => kv.2.intentions_utilisateur.any
        (fun p => strContains nq p))).map Prod.fst := by
  induction d with
  | nil => rfl
  | cons kv rest ih =>
    obtain ⟨key, entry⟩ := kv
    rw [detect_loop, phrase_hits_any]
    cases h : entry.intentions_utilisateur.any (fun p => strContains nq p) <;>
      simp [List.find?_cons, h, ih]

/-- Claim C7: detect_intention normalizes the query and then iterates the
dictionary entries in their declared order, returning the key of the first
entry having some trigger phrase in intentions_utilisateur that is a
literal substring of the normalized query, and none when no entry's
trigger phrase matches. -/
theorem detect_intention_first_match_c7 (query : List Char) (dictionary : JuridicalDictionary) :
    detect_intention query dictionary =
      (dictionary.find? (fun kv => kv.2.intentions_utilisateur.any
        (fun p => strContains (normalize_text query) p))).map Prod.fst :=
  detect_loop_find? (normalize_text query) dictionary

/-- A lookup over a dictionary none of whose keys matches fails. -/
theorem lookupDict_eq_none (dictionary : JuridicalDictionary) (key : List Char)
    (h : ∀ kv ∈ dictionary, kv.1 ≠ key) : lookupDict dictionary key = none := by
  unfold lookupDict
  rw [List.find?_eq_none.mpr]
  · rfl
  · intro kv hkv
    simpa using h kv hkv

/-- Claim C3: for every query and dictionary, calling enrich_query with an
intent_key that is not a key of the dictionary fails with the
PreconditionViolation error (Python's KeyError on the lookup). -/
theorem enrich_query_missing_key_c3 (query intent_key : List Char)
    (dictionary : JuridicalDictionary) (h : ∀ kv ∈ dictionary, kv.1 ≠ intent_key) :
    enrich_query query intent_key dictionary =
      Except.error PyFailure.preconditionViolation := by
  unfold enrich_query
  rw [lookupDict_eq_none dictionary intent_key h]

/-- Witness for claim C3 at a concrete absent key. -/
theorem enrich_query_missing_key_c3_witness :
    enrich_query (strL "ma question") (strL "cle_absente") exDict =
      Except.error PyFailure.preconditionViolation :=
  enrich_query_missing_key_c3 (strL "ma question") (strL "cle_absente") exDict
    (by decide)

/-- Claim C8: for every query and intent_key present in the dictionary,
enrich_query returns exactly the original query, a single space, then the
space-joined concatenation of the entry's concepts_juridiques_centrals
followed by its termes_juridiques_textes. -/
theorem enrich_query_present_key_c8 (query intent_key : List Char)
    (dictionary : JuridicalDictionary) (e : IntentEntry)
    (h : lookupDict dictionary intent_key = some e) :
    enrich_query query intent_key dictionary =
      Except.ok (query ++ ' ' :: pyJoinSpace
        (e.concepts_juridiques_centrals ++ e.termes_juridiques_textes)) := by
  unfold enrich_query
  rw [h]

/-- Witness for claim C8 at a concrete present key. -/
theorem enrich_query_present_key_c8_witness :
    enrich_query (strL "ma question") (strL "rupture_sans_preavis") exDict =
      Except.ok (strL "ma question" ++ ' ' :: pyJoinSpace
        (exEntry.concepts_juridiques_centrals ++ exEntry.termes_juridiques_textes)) :=
  enrich_query_present_key_c8 (strL "ma question") (strL "rupture_sans_preavis")
    exDict exEntry (by decide)

/-- With an empty keyword list the recall loop never fires. -/
theorem recall_loop_no_keywords (l : RankedResults) : recall_loop [] l = 0 := by
  induction l with
  | nil => rfl
  | cons it rest ih =>
    obtain ⟨doc, score⟩ := it
    simpa [recall_loop, is_relevant] using ih

/-- With an empty keyword list the reciprocal-rank loop never fires. -/
theorem rr_loop_no_keywords (l : RankedResults) : ∀ rank, rr_loop [] l rank = 0 := by
  induction l with
  | nil => intro rank; rfl
  | cons it rest ih =>
    obtain ⟨doc, score⟩ := it
    intro rank
    simpa [rr_loop, is_relevant] using ih (rank + 1)

/-- With an empty keyword list the DCG loop accumulates nothing. -/
theorem ndcg_core_no_keywords (l : RankedResults) :
    ∀ i, ndcg_core [] l i = (0, []) := by
  induction l with
  | nil => intro i; rfl
  | cons it rest ih =>
    obtain ⟨doc, score⟩ := it
    intro i
    simpa [ndcg_core, is_relevant] using ih (i + 1)

/-- Claim C10: with an empty keyword list is_relevant is always false, so
every document is judged not relevant and recall_at_k, reciprocal_rank and
ndcg_at_k all evaluate to 0 on every ranked result list and window. -/
theorem empty_keywords_all_zero_c10 (text : List Char) (results : RankedResults)
    (k : Int) :
    is_relevant text [] = false ∧ recall_at_k results [] k = 0 ∧
      reciprocal_rank results [] = 0 ∧ ndcg_at_k results [] k = 0 := by
  refine ⟨rfl, ?_, ?_, ?_⟩
  · exact recall_loop_no_keywords (pySliceTo results k)
  · exact rr_loop_no_keywords results 1
  · rw [ndcg_at_k, ndcg_core_no_keywords (pySliceTo results k) 1]
    rfl

/-- Counterexample to claim C1: at the concrete ranked list exResults
(first document relevant) and k = -1 < 1, Python's negative-slice
semantics keeps the first document, so recall_at_k is 1, not 0. -/
theorem metrics_k_lt_one_counterexample_c1 :
    (-1 : Int) < 1 ∧ recall_at_k exResults kwFaute (-1) ≠ 0 := by decide

/-- Claim C1 as amended: for k = 0 (the only non-negative k < 1)
recall_at_k and ndcg_at_k return 0 on every ranked result list, and on the
empty ranked result list recall_at_k, reciprocal_rank and ndcg_at_k return
0 for every k. -/
theorem metrics_zero_cases_c1 (results : RankedResults) (kws : List (List Char))
    (k : Int) :
    recall_at_k results kws 0 = 0 ∧ ndcg_at_k results kws 0 = 0 ∧
      recall_at_k [] kws k = 0 ∧ reciprocal_rank [] kws = 0 ∧
      ndcg_at_k [] kws k = 0 := by
  have hslice0 : pySliceTo results 0 = [] := by simp [pySliceTo]
  have hsliceN : pySliceTo [] k = [] := by simp [pySliceTo]
  refine ⟨?_, ?_, ?_, rfl, ?_⟩
  · rw [recall_at_k, hslice0]; rfl
  · rw [ndcg_at_k, hslice0]; rfl
  · rw [recall_at_k, hsliceN]; rfl
  · rw [ndcg_at_k, hsliceN]; rfl

/-- Claim C2: under the v2 article-prefix oracle, a document with a
non-empty meta.num is judged relevant iff its meta.num starts with some
accepted prefix; with meta.num absent or empty the judgment is the
keyword fallback, which judges by the keyword oracle when
relevant_keywords_fallback is provided and is false otherwise. -/
theorem v2_oracle_c2 (doc : Document) (q : BenchmarkQueryV2) :
    (∀ n, docNum doc = some n → n ≠ [] →
        is_relevant_v2 doc q =
          q.relevant_num_prefixes.any (fun p => listStartsWith n p)) ∧
    ((docNum doc = none ∨ docNum doc = some []) →
        is_relevant_v2 doc q = v2_fallback doc q) ∧
    (q.relevant_keywords_fallback = none → v2_fallback doc q = false) ∧
    (∀ kws, q.relevant_keywords_fallback = some kws →
        v2_fallback doc q = is_relevant doc.text kws) := by
  refine ⟨?_, ?_, ?_, ?_⟩
  · intro n hn hne
    rw [is_relevant_v2, hn]
    simp [List.isEmpty_iff, hne]
  · rintro (h | h) <;> rw [is_relevant_v2, h]
    simp [List.isEmpty_iff]
  · intro h; rw [v2_fallback, h]
  · intro kws h; rw [v2_fallback, h]

/-- Witness for claim C2: the document carrying meta.num L1234-3 is judged
by prefix matching. -/
theorem v2_oracle_c2_witness :
    is_relevant_v2 docL1234 qPref =
      qPref.relevant_num_prefixes.any (fun p => listStartsWith (strL "L1234-3") p) :=
  (v2_oracle_c2 docL1234 qPref).1 (strL "L1234-3") rfl (by decide)

/-- Detection over a dictionary none of whose phrases occurs fails. -/
theorem detect_loop_eq_none (nq : List Char) (d : JuridicalDictionary)
    (h : ∀ kv ∈ d, ∀ p ∈ kv.2.intentions_utilisateur, strContains nq p = false) :
    detect_loop nq d = none := by
  induction d with
  | nil => rfl
  | cons kv rest ih =>
    obtain ⟨key, entry⟩ := kv
    rw [detect_loop, phrase_hits_any]
    have hany : entry.intentions_utilisateur.any (fun p => strContains nq p) = false := by
      rw [List.any_eq_false]
      intro p hp
      simp [h ⟨key, entry⟩ (by simp) p hp]
    rw [hany]
    exact ih (fun kv hkv => h kv (by simp [hkv]))

/-- A detected intent names a key of the dictionary. -/
theorem detect_loop_key_mem (nq : List Char) (d : JuridicalDictionary)
    (key : List Char) (h : detect_loop nq d = some key) :
    ∃ kv ∈ d, kv.1 = key := by
  induction d with
  | nil => exact absurd h (by simp [detect_loop])
  | cons kv rest ih =>
    obtain ⟨k, entry⟩ := kv
    rw [detect_loop] at h
    by_cases hm : phrase_hits nq entry.intentions_utilisateur = true
    · rw [if_pos hm] at h
      exact ⟨⟨k, entry⟩, by simp, by simpa using h⟩
    · rw [if_neg hm] at h
      obtain ⟨kv, hkv, hk⟩ := ih h
      exact ⟨kv, by simp [hkv], hk⟩

/-- A key that occurs in the dictionary can be looked up. -/
theorem lookupDict_isSome (d : JuridicalDictionary) (key : List Char)
    (h : ∃ kv ∈ d, kv.1 = key) : ∃ e, lookupDict d key = some e := by
  obtain ⟨kv, hkv, hk⟩ := h
  have : (d.find? (fun kv => kv.1 == key)).isSome := by
    rw [List.find?_isSome]
    exact ⟨kv, hkv, by simp [hk]⟩
  obtain ⟨kv', hkv'⟩ := Option.isSome_iff_exists.mp this
  exact ⟨kv'.2, by rw [lookupDict, hkv']; rfl⟩

/-- Claim C4: for every query whose normalized form contains no trigger
phrase of any dictionary entry, process_user_query returns a result whose
intent_detected is none and whose enriched_query is the original query
unchanged. -/
theorem process_no_trigger_c4 (query : List Char) (dictionary : JuridicalDictionary)
    (h : ∀ kv ∈ dictionary, ∀ p ∈ kv.2.intentions_utilisateur,
      strContains (normalize_text query) p = false) :
    ∃ r, process_user_query query dictionary = Except.ok r ∧
      r.intent_detected = none ∧ r.enriched_query = query := by
  have hdet : detect_intention query dictionary = none :=
    detect_loop_eq_none (normalize_text query) dictionary h
  exact ⟨⟨none, query, some noIntentNotes, none, none⟩,
    by rw [process_user_query, hdet], rfl, rfl⟩

/-- Witness for claim C4 at a concrete query with no trigger phrase. -/
theorem process_no_trigger_c4_witness :
    ∃ r, process_user_query (strL "bonjour tout le monde") exDict = Except.ok r ∧
      r.intent_detected = none ∧ r.enriched_query = strL "bonjour tout le monde" :=
  process_no_trigger_c4 (strL "bonjour tout le monde") exDict (by decide)

/-- Claim C5: the result of process_user_query carries codes_cibles and
articles_cibles exactly when an intent was detected, their values coming
from the entry of the detected key, and carries the explanatory non-empty
notes string when no intent was found. -/
theorem process_result_shape_c5 (query : List Char) (dictionary : JuridicalDictionary) :
    ∃ r, process_user_query query dictionary = Except.ok r ∧
      r.codes_cibles.isSome = r.intent_detected.isSome ∧
      r.articles_cibles.isSome = r.intent_detected.isSome ∧
      (∀ key, r.intent_detected = some key →
        ∃ e, lookupDict dictionary key = some e ∧
          r.codes_cibles = some e.codes_cibles ∧
          r.articles_cibles = some e.articles_cibles) ∧
      (r.intent_detected = none → r.notes = some noIntentNotes ∧ noIntentNotes ≠ []) := by
  cases hdet : detect_intention query dictionary with
  | none =>
    refine ⟨⟨none, query, some noIntentNotes, none, none⟩,
      by rw [process_user_query, hdet], rfl, rfl, ?_, ?_⟩
    · intro key hkey; exact absurd hkey (by simp)
    · intro _; exact ⟨rfl, by decide⟩
  | some intent =>
    obtain ⟨e, he⟩ := lookupDict_isSome dictionary intent
      (detect_loop_key_mem (normalize_text query) dictionary intent hdet)
    refine ⟨⟨some intent, query ++ ' ' :: pyJoinSpace
        (e.concepts_juridiques_centrals ++ e.termes_juridiques_textes), none,
        some e.codes_cibles, some e.articles_cibles⟩, ?_, rfl, rfl, ?_, ?_⟩
    · have hen : enrich_query query intent dictionary =
        Except.ok (query ++ ' ' :: pyJoinSpace
          (e.concepts_juridiques_centrals ++ e.termes_juridiques_textes)) := by
        unfold enrich_query; rw [he]
      rw [process_user_query, hdet]
      dsimp only
      rw [hen, he]
    · intro key hkey
      obtain rfl : intent = key := by simpa using hkey
      exact ⟨e, he, rfl, rfl⟩
    · intro hn; exact absurd hn (by simp)

/-- Witness for claim C5 at a concrete query that triggers the intent. -/
theorem process_result_shape_c5_witness :
    ∃ r, process_user_query (strL "mon CDI a été rompu sans préavis") exDict =
        Except.ok r ∧
      r.codes_cibles.isSome = r.intent_detected.isSome ∧
      r.articles_cibles.isSome = r.intent_detected.isSome ∧
      (∀ key, r.intent_detected = some key →
        ∃ e, lookupDict exDict key = some e ∧
          r.codes_cibles = some e.codes_cibles ∧
          r.articles_cibles = some e.articles_cibles) ∧
      (r.intent_detected = none → r.notes = some noIntentNotes ∧ noIntentNotes ≠ []) :=
  process_result_shape_c5 (strL "mon CDI a été rompu sans préavis") exDict

/-- The relevances list of the DCG loop is empty exactly when no document
of the window is relevant. -/
theorem ndcg_core_isEmpty_all (kws : List (List Char)) (l : RankedResults) :
    ∀ i, (ndcg_core kws l i).2.isEmpty =
      l.all (fun it => !is_relevant it.1.text kws) := by
  induction l with
  | nil => intro i; rfl
  | cons it rest ih =>
    obtain ⟨doc, score⟩ := it
    intro i
    cases h : is_relevant doc.text kws <;> simp [ndcg_core, h, ih (i + 1)]

/-- The relevances list counts the relevant documents of the window. -/
theorem ndcg_core_snd_length (kws : List (List Char)) (l : RankedResults) :
    ∀ i, (ndcg_core kws l i).2.length = countRel kws l := by
  induction l with
  | nil => intro i; rfl
  | cons it rest ih =>
    obtain ⟨doc, score⟩ := it
    intro i
    cases h : is_relevant doc.text kws <;>
      simp [ndcg_core, countRel, List.filter_cons, h, ih (i + 1)]

/-- The DCG accumulated by the loop is the sum of the gains of the
relevant documents at their positions, counted from the start index. -/
theorem ndcg_core_fst_dcg (kws : List (List Char)) (l : RankedResults) :
    ∀ i, (ndcg_core kws l i).1 =
      (((l.enumFrom i).filter (fun p => is_relevant p.2.1.text kws)).map
        (fun p => gain p.1)).sum := by
  induction l with
  | nil => intro i; simp [ndcg_core]
  | cons it rest ih =>
    obtain ⟨doc, score⟩ := it
    intro i
    cases h : is_relevant doc.text kws <;>
      simp [ndcg_core, List.enumFrom_cons, List.filter_cons, h, ih (i + 1)]

/-- The IDCG loop computes the spec's ideal-position sum. -/
theorem idcg_loop_eq_spec : ∀ n, idcg_loop n = idcg_spec n := by
  intro n
  induction n with
  | zero => simp [idcg_loop, idcg_spec]
  | succ n ih =>
    rw [idcg_loop, ih, idcg_spec, idcg_spec, List.range_succ]
    simp

/-- Claim C9: ndcg_at_k returns exactly 0 when no result among the first
k is judged relevant, and otherwise DCG divided by IDCG, where DCG sums
the gain 1/log2(i+1) over the 1-based positions i of the relevant results
in the window and IDCG sums 1/log2(j+1) for j from 1 up to the number of
relevant results found in the window. -/
theorem ndcg_characterization_c9 (results : RankedResults) (kws : List (List Char))
    (k : Int) :
    ndcg_at_k results kws k =
      if (pySliceTo results k).all (fun it => !is_relevant it.1.text kws) then 0
      else dcg_spec kws (pySliceTo results k) /
        idcg_spec (countRel kws (pySliceTo results k)) := by
  rw [ndcg_at_k, ndcg_core_isEmpty_all kws (pySliceTo results k) 1,
    ndcg_core_fst_dcg kws (pySliceTo results k) 1,
    ndcg_core_snd_length kws (pySliceTo results k) 1, idcg_loop_eq_spec]
  rfl

/-- Characters kept by the letter class are untouched by lower-casing. -/
theorem allowed_pyLower {c : Char} (h : isAllowedChar c = true) : pyLower c = c := by
  rw [isAllowedChar, Bool.or_eq_true] at h
  rcases h with h | h
  · rw [isAsciiLowerAlpha, Bool.and_eq_true, decide_eq_true_iff, decide_eq_true_iff] at h
    obtain ⟨h1, h2⟩ := h
    have e1 : (65 ≤ c.toNat && c.toNat ≤ 90) = false := by
      simp only [Bool.and_eq_false_iff, decide_eq_false_iff_not]; omega
    have e2 : ((192 ≤ c.toNat && c.toNat ≤ 222) && !(c.toNat == 215)) = false := by
      simp only [Bool.and_eq_false_iff, decide_eq_false_iff_not]; left; left; omega
    have e3 : (c.toNat == 376) = false := by simp only [beq_eq_false_iff_ne]; omega
    have e4 : (c.toNat == 338) = false := by simp only [beq_eq_false_iff_ne]; omega
    rw [pyLower, e1, e2, e3, e4]
    rfl
  · have h' : c ∈ lettersAllowed := by simpa using h
    fin_cases h' <;> decide

/-- Characters kept by the letter class are not whitespace. -/
theorem allowed_not_space {c : Char} (h : isAllowedChar c = true) : pyIsSpace c = false := by
  rw [isAllowedChar, Bool.or_eq_true] at h
  rcases h with h | h
  · rw [isAsciiLowerAlpha, Bool.and_eq_true, decide_eq_true_iff, decide_eq_true_iff] at h
    obtain ⟨h1, h2⟩ := h
    rw [pyIsSpace]
    simp only [decide_eq_false_iff_not]
    intro hmem
    simp only [List.mem_cons, List.not_mem_nil, or_false] at hmem
    omega
  · have h' : c ∈ lettersAllowed := by simpa using h
    fin_cases h' <;> decide

/-- Characters that can appear in normalized output are fixed by
lower-casing. -/
theorem okChar_pyLower {c : Char} (h : okChar c = true) : pyLower c = c := by
  rw [okChar, Bool.or_eq_true] at h
  rcases h with h | h
  · exact allowed_pyLower h
  · obtain rfl : c = ' ' := by simpa using h
    decide

/-- Characters that can appear in normalized output are kept by the regex
substitution. -/
theorem okChar_sub_special {c : Char} (h : okChar c = true) : sub_special c = c := by
  rw [okChar, Bool.or_eq_true] at h
  rcases h with h | h
  · rw [sub_special, h]; rfl
  · obtain rfl : c = ' ' := by simpa using h
    decide

/-- The only whitespace character that can appear in normalized output is
the plain space. -/
theorem okChar_space_eq {c : Char} (h : okChar c = true) (hs : pyIsSpace c = true) :
    c = ' ' := by
  rw [okChar, Bool.or_eq_true] at h
  rcases h with h | h
  · rw [allowed_not_space h] at hs
    exact absurd hs (by simp)
  · simpa using h

/-- A map whose function fixes every member of the list is the identity. -/
theorem map_fix {α : Type} (f : α → α) :
    ∀ l : List α, (∀ c ∈ l, f c = c) → l.map f = l := by
  intro l
  induction l with
  | nil => intro _; rfl
  | cons c t ih =>
    intro h
    rw [List.map_cons, h c (by simp), ih (fun x hx => h x (by simp [hx]))]

/-- The head of a collapsed non-empty list is its first character, with
whitespace turned into a plain space. -/
theorem collapse_head (d : Char) (rest : List Char) :
    (collapse_ws (d :: rest)).head? = some (if pyIsSpace d then ' ' else d) := by
  induction rest generalizing d with
  | nil => rfl
  | cons e rs ih =>
    rw [collapse_ws]
    by_cases hde : (pyIsSpace d && pyIsSpace e) = true
    · rw [if_pos hde, ih e]
      obtain ⟨hd, he⟩ : pyIsSpace d = true ∧ pyIsSpace e = true := by simpa using hde
      rw [if_pos (by simp [he]), if_pos (by simp [hd])]
    · rw [if_neg hde]
      simp

/-- Collapapsed output never has two adjacent whitespace characters. -/
theorem collapse_noAdj : ∀ l : List Char, NoAdj (collapse_ws l) := by
  intro l
  induction l with
  | nil => exact List.chain'_nil
  | cons c t ih =>
    cases t with
    | nil =>
      rw [collapse_ws]
      exact List.chain'_singleton _
    | cons d rest =>
      rw [collapse_ws]
      by_cases hcd : (pyIsSpace c && pyIsSpace d) = true
      · rw [if_pos hcd]
        exact ih
      · rw [if_neg hcd]
        unfold NoAdj
        rw [List.chain'_cons']
        refine ⟨?_, ih⟩
        intro y hy
        rw [collapse_head d rest] at hy
        obtain rfl : (if pyIsSpace d = true then ' ' else d) = y := by simpa using hy
        rcases Bool.and_eq_false_iff.mp (Bool.eq_false_iff.mpr hcd) with hc | hd
        · left
          rw [if_neg (by simp [hc])]
          exact hc
        · right
          rw [if_neg (by simp [hd])]
          exact hd

/-- Every character of collapsed output is a plain space or a
non-whitespace character of the input. -/
theorem collapse_mem : ∀ (l : List Char) (c : Char), c ∈ collapse_ws l →
    c = ' ' ∨ (c ∈ l ∧ pyIsSpace c = false) := by
  intro l
  induction l with
  | nil => intro c hc; exact absurd hc (by simp [collapse_ws])
  | cons a t ih =>
    cases t with
    | nil =>
      intro c hc
      rw [collapse_ws] at hc
      obtain rfl : c = if pyIsSpace a then ' ' else a := by simpa using hc
      cases ha : pyIsSpace a
      · right; simp [ha]
      · left; simp [ha]
    | cons d rest =>
      intro c hc
      rw [collapse_ws] at hc
      by_cases had : (pyIsSpace a && pyIsSpace d) = true
      · rw [if_pos had] at hc
        rcases ih c hc with h | ⟨hmem, hsp⟩
        · exact Or.inl h
        · exact Or.inr ⟨by simp [hmem], hsp⟩
      · rw [if_neg had] at hc
        rcases List.mem_cons.mp hc with hc | hc
        · cases ha : pyIsSpace a
          · right
            constructor
            · simp [hc, ha]
            · rw [hc, if_neg (by simp [ha])]
              exact ha
          · left
            rw [hc, if_pos (by simp [ha])]
        · rcases ih c hc with h | ⟨hmem, hsp⟩
          · exact Or.inl h
          · exact Or.inr ⟨by simp [hmem], hsp⟩

/-- Dropping a whitespace run cannot produce a whitespace head. -/
theorem dropWhile_headOk (l : List Char) : HeadOk (l.dropWhile pyIsSpace) := by
  induction l with
  | nil => intro c hc; simp at hc
  | cons a t ih =>
    rw [List.dropWhile_cons]
    by_cases ha : pyIsSpace a = true
    · rw [if_pos ha]; exact ih
    · rw [if_neg ha]
      intro c hc
      obtain rfl : a = c := by simpa using hc
      exact Bool.eq_false_iff.mpr ha

/-- Dropping leading whitespace from a list with a non-whitespace head is
the identity. -/
theorem dropWhile_id_of_headOk (l : List Char) (h : HeadOk l) :
    l.dropWhile pyIsSpace = l := by
  cases l with
  | nil => rfl
  | cons a t =>
    rw [List.dropWhile_cons, if_neg]
    simp [h a rfl]

/-- Dropping leading whitespace keeps the last element of what remains. -/
theorem getLast?_dropWhile (l : List Char) (h : l.dropWhile pyIsSpace ≠ []) :
    (l.dropWhile pyIsSpace).getLast? = l.getLast? := by
  induction l with
  | nil => simp at h
  | cons a t ih =>
    rw [List.dropWhile_cons] at h ⊢
    by_cases ha : pyIsSpace a = true
    · rw [if_pos ha] at h ⊢
      cases t with
      | nil => simp at h
      | cons b t' => rw [ih h, List.getLast?_cons_cons]
    · rw [if_neg ha] at h ⊢

/-- Membership is preserved back through dropWhile. -/
theorem mem_dropWhile_sub {p : Char → Bool} :
    ∀ (l : List Char) (c : Char), c ∈ l.dropWhile p → c ∈ l := by
  intro l
  induction l with
  | nil => intro c hc; simp at hc
  | cons a t ih =>
    intro c hc
    rw [List.dropWhile_cons] at hc
    by_cases ha : p a = true
    · rw [if_pos ha] at hc
      exact List.mem_cons_of_mem a (ih c hc)
    · rw [if_neg ha] at hc
      exact hc

/-- Adjacent whitespace pairs cannot appear after dropping a prefix run. -/
theorem noAdj_dropWhile (l : List Char) (h : NoAdj l) :
    NoAdj (l.dropWhile pyIsSpace) := by
  induction l with
  | nil => exact h
  | cons a t ih =>
    rw [List.dropWhile_cons]
    by_cases ha : pyIsSpace a = true
    · rw [if_pos ha]
      exact ih (List.Chain'.tail h)
    · rw [if_neg ha]; exact h

/-- Adjacent whitespace pairs cannot appear after reversal. -/
theorem noAdj_reverse (l : List Char) (h : NoAdj l) : NoAdj l.reverse := by
  unfold NoAdj at h ⊢
  rw [List.chain'_reverse]
  exact List.Chain'.imp (fun a b hab => hab.symm) h

/-- Stripping keeps only characters of the original list. -/
theorem pyStrip_sub (l : List Char) (c : Char) (h : c ∈ pyStrip l) : c ∈ l := by
  rw [pyStrip, List.mem_reverse] at h
  have h2 := mem_dropWhile_sub _ c h
  rw [List.mem_reverse] at h2
  exact mem_dropWhile_sub _ c h2

/-- Stripping preserves the no-adjacent-whitespace property. -/
theorem pyStrip_noAdj (l : List Char) (h : NoAdj l) : NoAdj (pyStrip l) := by
  rw [pyStrip]
  exact noAdj_reverse _ (noAdj_dropWhile _ (noAdj_reverse _ (noAdj_dropWhile _ h)))

/-- A stripped list does not start with whitespace. -/
theorem pyStrip_headOk (l : List Char) : HeadOk (pyStrip l) := by
  intro c hc
  rw [pyStrip, List.head?_reverse] at hc
  have hne : ((l.dropWhile pyIsSpace).reverse).dropWhile pyIsSpace ≠ [] := by
    intro h0; rw [h0] at hc; simp at hc
  rw [getLast?_dropWhile _ hne, List.getLast?_reverse] at hc
  exact dropWhile_headOk l c hc

/-- A stripped list does not end with whitespace. -/
theorem pyStrip_lastOk (l : List Char) : LastOk (pyStrip l) := by
  intro c hc
  rw [pyStrip, List.getLast?_reverse] at hc
  exact dropWhile_headOk ((l.dropWhile pyIsSpace).reverse) c hc

/-- Collapsing is the identity on canonical lists. -/
theorem collapse_id : ∀ l : List Char, OkList l → NoAdj l → collapse_ws l = l := by
  intro l
  induction l with
  | nil => intro _ _; rfl
  | cons a t ih =>
    cases t with
    | nil =>
      intro hok _
      rw [collapse_ws]
      by_cases ha : pyIsSpace a = true
      · rw [if_pos ha, okChar_space_eq (hok a (by simp)) ha]
      · rw [if_neg ha]
    | cons d rest =>
      intro hok hadj
      unfold NoAdj at hadj
      rw [List.chain'_cons] at hadj
      obtain ⟨had, htail⟩ := hadj
      have hcd : (pyIsSpace a && pyIsSpace d) = false := by
        rcases had with h | h <;> simp [h]
      rw [collapse_ws, if_neg (by simp [hcd])]
      have ha' : (if pyIsSpace a = true then ' ' else a) = a := by
        by_cases ha : pyIsSpace a = true
        · rw [if_pos ha, okChar_space_eq (hok a (by simp)) ha]
        · rw [if_neg ha]
      rw [ha', ih (fun c hc => hok c (by simp [hc])) htail]

/-- Stripping is the identity on lists with non-whitespace ends. -/
theorem strip_id (l : List Char) (h1 : HeadOk l) (h2 : LastOk l) : pyStrip l = l := by
  have hrev : HeadOk l.reverse := by
    intro c hc
    rw [List.head?_reverse] at hc
    exact h2 c hc
  rw [pyStrip, dropWhile_id_of_headOk l h1, dropWhile_id_of_headOk _ hrev,
    List.reverse_reverse]

/-- Normalized output contains only kept letters and plain spaces. -/
theorem normalize_okList (x : List Char) : OkList (normalize_text x) := by
  intro c hc
  rw [normalize_text] at hc
  have h1 : c ∈ collapse_ws ((x.map pyLower).map sub_special) := pyStrip_sub _ c hc
  rcases collapse_mem _ c h1 with rfl | ⟨hmem, hsp⟩
  · decide
  · rw [List.mem_map] at hmem
    obtain ⟨b, _, rfl⟩ := hmem
    rw [sub_special] at hsp ⊢
    by_cases hkeep : (isAllowedChar b || pyIsSpace b) = true
    · rw [if_pos hkeep] at hsp ⊢
      rcases (by simpa using hkeep : isAllowedChar b = true ∨ pyIsSpace b = true) with h | h
      · simp [okChar, h]
      · exact absurd h (by simp [hsp])
    · rw [if_neg hkeep]
      decide

/-- Normalized output has no adjacent whitespace. -/
theorem normalize_noAdj (x : List Char) : NoAdj (normalize_text x) := by
  rw [normalize_text]
  exact pyStrip_noAdj _ (collapse_noAdj _)

/-- Normalized output does not start with whitespace. -/
theorem normalize_headOk (x : List Char) : HeadOk (normalize_text x) := by
  rw [normalize_text]
  exact pyStrip_headOk _

/-- Normalized output does not end with whitespace. -/
theorem normalize_lastOk (x : List Char) : LastOk (normalize_text x) := by
  rw [normalize_text]
  exact pyStrip_lastOk _

/-- Claim C6: text normalization is idempotent; normalizing an already
normalized string returns it unchanged. -/
theorem normalize_text_idempotent_c6 (x : List Char) :
    normalize_text (normalize_text x) = normalize_text x := by
  have hok := normalize_okList x
  have hadj := normalize_noAdj x
  have hh := normalize_headOk x
  have hl := normalize_lastOk x
  set y := normalize_text x with hy
  rw [show normalize_text y =
      pyStrip (collapse_ws ((y.map pyLower).map sub_special)) from rfl,
    map_fix pyLower y (fun c hc => okChar_pyLower (hok c hc)),
    map_fix sub_special y (fun c hc => okChar_sub_special (hok c hc)),
    collapse_id y hok hadj, strip_id y hh hl]

end RagLegal
